import Mathlib

/-!
Verification development for the erudaite-desktop core
(src/src-tauri/src/commands.rs).

Strings from the Rust source are modelled as `List Char`; byte streams as
`List Nat`.  The two verified components are the SSE stream parser of
`translate_sse` and the clipboard-mediated selection capture of
`capture_selected_text`.
-/

namespace Erudaite

/-- Models Rust `char::is_whitespace` (the Unicode `White_Space` property),
used by `str::trim`. -/
def rustIsWhitespace (c : Char) : Bool :=
  let n := c.toNat
  (0x09 ≤ n && n ≤ 0x0D) || n = 0x20 || n = 0x85 || n = 0xA0 || n = 0x1680 ||
  (0x2000 ≤ n && n ≤ 0x200A) || n = 0x2028 || n = 0x2029 || n = 0x202F ||
  n = 0x205F || n = 0x3000

/-- Models Rust `str::trim`: remove leading and trailing whitespace. -/
def rustTrim (s : List Char) : List Char :=
  ((s.dropWhile rustIsWhitespace).reverse.dropWhile rustIsWhitespace).reverse

/-- Models Rust `str::trim_end_matches(c)`: remove every trailing
occurrence of the character `c`. -/
def trimEndMatchesChar (c : Char) (s : List Char) : List Char :=
  (s.reverse.dropWhile (fun x => x = c)).reverse

theorem isPrefixOf_length_le : ∀ p s : List Char, p.isPrefixOf s → p.length ≤ s.length
  | [], _, _ => by simp
  | _ :: _, [], h => by simp [List.isPrefixOf] at h
  | a :: p, b :: s, h => by
    simp only [List.isPrefixOf, Bool.and_eq_true] at h
    simpa using isPrefixOf_length_le p s h.2

/-- Fuel-driven repeated stripping of a non-empty pattern from the front. -/
def trimStartMatchesGo (p : List Char) : Nat → List Char → List Char
  | 0, s => s
  | fuel + 1, s =>
    if p.isPrefixOf s then trimStartMatchesGo p fuel (s.drop p.length) else s

/-- Models Rust `str::trim_start_matches(p)` for a string pattern `p`:
repeatedly remove the pattern from the front while it matches. -/
def trimStartMatchesList (p : List Char) (s : List Char) : List Char :=
  if p = [] then s else trimStartMatchesGo p s.length s

theorem trimStartMatchesGo_irrel (p : List Char) (hp : p ≠ []) :
    ∀ fuel fuel' s, s.length ≤ fuel → s.length ≤ fuel' →
      trimStartMatchesGo p fuel s = trimStartMatchesGo p fuel' s := by
  intro fuel
  induction fuel with
  | zero =>
    intro fuel' s hs _
    have : s = [] := List.length_eq_zero.mp (Nat.le_zero.mp hs)
    subst this
    cases fuel' with
    | zero => rfl
    | succ f =>
      have : p.isPrefixOf ([] : List Char) = false := by
        cases p with
        | nil => exact absurd rfl hp
        | cons a q => rfl
      simp [trimStartMatchesGo, this]
  | succ fuel ih =>
    intro fuel' s hs hs'
    cases fuel' with
    | zero =>
      have : s = [] := List.length_eq_zero.mp (Nat.le_zero.mp hs')
      subst this
      have : p.isPrefixOf ([] : List Char) = false := by
        cases p with
        | nil => exact absurd rfl hp
        | cons a q => rfl
      simp [trimStartMatchesGo, this]
    | succ f' =>
      simp only [trimStartMatchesGo]
      by_cases hpre : p.isPrefixOf s
      · rw [if_pos hpre, if_pos hpre]
        have hplen : 0 < p.length := List.length_pos.mpr hp
        have hle : p.length ≤ s.length := isPrefixOf_length_le p s hpre
        have hlen : (s.drop p.length).length ≤ fuel := by
          simp only [List.length_drop]; omega
        have hlen' : (s.drop p.length).length ≤ f' := by
          simp only [List.length_drop]; omega
        exact ih f' (s.drop p.length) hlen hlen'
      · rw [if_neg hpre, if_neg hpre]

theorem trimStartMatchesList_eq (p s : List Char) (hp : p ≠ []) :
    trimStartMatchesList p s =
      if p.isPrefixOf s then trimStartMatchesList p (s.drop p.length) else s := by
  by_cases hpre : p.isPrefixOf s
  · rw [if_pos hpre]
    have hplen : 0 < p.length := List.length_pos.mpr hp
    have hle : p.length ≤ s.length := isPrefixOf_length_le p s hpre
    have h1 : s.length = (s.length - 1) + 1 := by omega
    simp only [trimStartMatchesList, if_neg hp]
    rw [h1]
    simp only [trimStartMatchesGo, if_pos hpre]
    apply trimStartMatchesGo_irrel p hp
    · simp only [List.length_drop]; omega
    · simp only [List.length_drop]; omega
  · rw [if_neg hpre]
    simp only [trimStartMatchesList, if_neg hp]
    cases hl : s.length with
    | zero => rfl
    | succ n => simp [trimStartMatchesGo, hpre]

/-! ## SSE stream parser (`translate_sse`) -/

/-- The event type sent on the Tauri channel (`StreamEvent` in the source):
`delta` carries a text fragment, `done` and `error` are terminal. -/
inductive StreamEvent where
  | delta (content : List Char)
  | done
  | error (message : List Char)
deriving DecidableEq, Repr

/-- Whether an event is terminal (`done` or `error`). -/
def StreamEvent.isTerminal : StreamEvent → Bool
  | .delta _ => false
  | .done => true
  | .error _ => true

/-- What the loop body of `translate_sse` does with one extracted line:
skip it, emit a delta and continue, or emit a terminal event and return. -/
inductive LineStep where
  | skip
  | delta (content : List Char)
  | doneEv
  | errorEv (message : List Char)
deriving DecidableEq, Repr

/-- Result of `serde_json::from_str` as observed by `translate_sse`:
`none` when parsing fails; otherwise the values of
`v.get("content").and_then(as_str)` and `v.get("error").and_then(as_str)`.
The parser itself is an external collaborator, so the development is
parametric in a function of this type. -/
def JsonFields : Type := Option (Option (List Char) × Option (List Char))

/-- The fixed SSE data-prefix `"data: "`. -/
def dataPrefixChars : List Char := "data: ".data

/-- The `[DONE]` terminal token. -/
def doneToken : List Char := "[DONE]".data

/-- How `translate_sse` interprets an already-extracted payload `data`
(source lines 371-394): the `[DONE]` token, empty keep-alive, malformed
JSON, a non-empty `content` field, or an `error` field. -/
def interpretPayload (pj : List Char → JsonFields) (data : List Char) : LineStep :=
  if data = doneToken then .doneEv
  else if data = [] then .skip
  else
    match pj data with
    | none => .skip
    | some (contentOpt, errOpt) =>
      match contentOpt with
      | some content => if content = [] then .skip else .delta content
      | none =>
        match errOpt with
        | some e => .errorEv e
        | none => .skip

/-- Processing of one extracted line (source lines 366-394): strip trailing
carriage returns, ignore lines lacking the data-prefix, strip the prefix and
surrounding whitespace, then interpret the payload. -/
def handleLine (pj : List Char → JsonFields) (line0 : List Char) : LineStep :=
  let line := trimEndMatchesChar '\r' line0
  if dataPrefixChars.isPrefixOf line then
    interpretPayload pj (rustTrim (trimStartMatchesList dataPrefixChars line))
  else .skip

/-- Models `buffer.find('\n')` plus the two slicings (source lines 362-364):
the part before the first newline and the part after it, or `none` when the
buffer holds no newline. -/
def splitAtNewline : List Char → Option (List Char × List Char)
  | [] => none
  | c :: cs =>
    if c = '\n' then some ([], cs)
    else
      match splitAtNewline cs with
      | none => none
      | some (l, r) => some (c :: l, r)

theorem splitAtNewline_length {b l r : List Char}
    (h : splitAtNewline b = some (l, r)) : r.length < b.length := by
  induction b generalizing l r with
  | nil => simp [splitAtNewline] at h
  | cons c cs ih =>
    by_cases hc : c = '\n'
    · simp [splitAtNewline, hc] at h
      simp [← h.2]
    · simp only [splitAtNewline, if_neg hc] at h
      cases hs : splitAtNewline cs with
      | none => rw [hs] at h; simp at h
      | some p =>
        rw [hs] at h
        cases p with
        | mk l' r' =>
          simp at h
          have := ih (l := l') (r := r') hs
          simp [← h.2]
          omega

/-- The inner `while let Some(pos) = buffer.find('\n')` loop of
`translate_sse` (source lines 362-395), with fuel for structural recursion.
Returns the events emitted, the remaining buffer, and `none` when the loop
drained the buffer, `some true` for the `[DONE]` early return, `some false`
for the error early return. -/
def processBufferF (pj : List Char → JsonFields) :
    Nat → List Char → List StreamEvent × List Char × Option Bool
  | 0, buf => ([], buf, none)
  | fuel + 1, buf =>
    match splitAtNewline buf with
    | none => ([], buf, none)
    | some (line, rest) =>
      match handleLine pj line with
      | .skip => processBufferF pj fuel rest
      | .delta c =>
        let (evs, b, r) := processBufferF pj fuel rest
        (.delta c :: evs, b, r)
      | .doneEv => ([.done], rest, some true)
      | .errorEv m => ([.error m], rest, some false)

/-- The inner line-processing loop at its natural fuel. -/
def processBuffer (pj : List Char → JsonFields) (buf : List Char) :
    List StreamEvent × List Char × Option Bool :=
  processBufferF pj buf.length buf

/-- One item of `res.bytes_stream()`: a byte chunk or a read error. -/
inductive ChunkItem where
  | ok (bytes : List Nat)
  | err (msg : List Char)
deriving DecidableEq, Repr

/-- The replacement character U+FFFD. -/
def replChar : Char := Char.ofNat 0xFFFD

/-- Classification of a byte at the start of a UTF-8 sequence. -/
inductive Utf8Start where
  | ascii (c : Char)
  | lead (cp needed lower upper : Nat)
  | bad

/-- First-byte classification of the incremental UTF-8 decoder (the WHATWG
algorithm, which matches Rust's `String::from_utf8_lossy` replacement of
maximal invalid subparts). -/
def utf8StartByte (b : Nat) : Utf8Start :=
  if b ≤ 0x7F then .ascii (Char.ofNat b)
  else if 0xC2 ≤ b && b ≤ 0xDF then .lead (b % 32) 1 0x80 0xBF
  else if b = 0xE0 then .lead (b % 16) 2 0xA0 0xBF
  else if b = 0xED then .lead (b % 16) 2 0x80 0x9F
  else if 0xE1 ≤ b && b ≤ 0xEF then .lead (b % 16) 2 0x80 0xBF
  else if b = 0xF0 then .lead (b % 8) 3 0x90 0xBF
  else if b = 0xF4 then .lead (b % 8) 3 0x80 0x8F
  else if 0xF1 ≤ b && b ≤ 0xF3 then .lead (b % 8) 3 0x80 0xBF
  else .bad

/-- Decoder state: between characters, or inside a multi-byte sequence. -/
inductive Utf8State where
  | clean
  | mid (cp needed lower upper : Nat)

/-- The UTF-8 lossy decoding loop. -/
def utf8Go : Utf8State → List Nat → List Char
  | .clean, [] => []
  | .mid _ _ _ _, [] => [replChar]
  | .clean, b :: bs =>
    (match utf8StartByte b with
     | .ascii c => c :: utf8Go .clean bs
     | .lead cp needed lower upper => utf8Go (.mid cp needed lower upper) bs
     | .bad => replChar :: utf8Go .clean bs)
  | .mid cp needed lower upper, b :: bs =>
    if lower ≤ b && b ≤ upper then
      let cp' := cp * 64 + b % 64
      if needed = 1 then Char.ofNat cp' :: utf8Go .clean bs
      else utf8Go (.mid cp' (needed - 1) 0x80 0xBF) bs
    else
      replChar ::
        (match utf8StartByte b with
         | .ascii c => c :: utf8Go .clean bs
         | .lead cp2 n2 l2 u2 => utf8Go (.mid cp2 n2 l2 u2) bs
         | .bad => replChar :: utf8Go .clean bs)

/-- Models Rust `String::from_utf8_lossy` on one chunk
(source line 358). -/
def utf8LossyDecode (bs : List Nat) : List Char := utf8Go .clean bs

/-- The `while let Some(item) = stream.next().await` loop of `translate_sse`
(source lines 347-399): on a read error emit `error` and fail; otherwise
lossily decode the chunk, append to the buffer, run the line loop, and stop
if it returned; after the last chunk emit `done` and succeed.  Returns the
ordered events together with the success flag of the call. -/
def relayGo (pj : List Char → JsonFields) (buf : List Char) :
    List ChunkItem → List StreamEvent × Bool
  | [] => ([.done], true)
  | .err e :: _ => ([.error ("stream error: ".data ++ e)], false)
  | .ok bs :: rest =>
    match processBuffer pj (buf ++ utf8LossyDecode bs) with
    | (evs, buf', none) =>
      let (evs2, ok) := relayGo pj buf' rest
      (evs ++ evs2, ok)
    | (evs, _, some ok) => (evs, ok)

/-- The same chunk loop at the granularity of already-decoded text chunks. -/
def relayChars (pj : List Char → JsonFields) (buf : List Char) :
    List (List Char) → List StreamEvent × Bool
  | [] => ([.done], true)
  | c :: rest =>
    match processBuffer pj (buf ++ c) with
    | (evs, buf', none) =>
      let (evs2, ok) := relayChars pj buf' rest
      (evs ++ evs2, ok)
    | (evs, _, some ok) => (evs, ok)

/-- Predicate: `runsClean pj buf chunks` holds when processing the chunks neither hits
a read error nor emits a terminal event inside the loop: the stream runs to
end-of-input. -/
def runsClean (pj : List Char → JsonFields) (buf : List Char) :
    List ChunkItem → Bool
  | [] => true
  | .err _ :: _ => false
  | .ok bs :: rest =>
    match processBuffer pj (buf ++ utf8LossyDecode bs) with
    | (_, buf', none) => runsClean pj buf' rest
    | (_, _, some _) => false

/-- Model of `translate_sse` after the HTTP send (source lines 335-399): a non-success
status emits one `error` event and fails; otherwise the stream loop runs. -/
def translate_sse (pj : List Char → JsonFields) (statusSuccess : Bool)
    (statusLine bodyText : List Char) (chunks : List ChunkItem) :
    List StreamEvent × Bool :=
  if statusSuccess then relayGo pj [] chunks
  else ([.error ("api error ".data ++ statusLine ++ ": ".data ++ bodyText)], false)

/-! ### Line-level view of the buffer loop -/

/-- Decompose a buffer into its complete newline-terminated lines and the
trailing partial line. -/
def splitLines : List Char → List (List Char) × List Char
  | [] => ([], [])
  | c :: cs =>
    if c = '\n' then ([] :: (splitLines cs).1, (splitLines cs).2)
    else
      match splitLines cs with
      | ([], r) => ([], c :: r)
      | (l :: ls, r) => ((c :: l) :: ls, r)

/-- Sequential interpretation of a list of complete lines, with the early
stop of the source loop. -/
def processLines (pj : List Char → JsonFields) :
    List (List Char) → List StreamEvent × Option Bool
  | [] => ([], none)
  | l :: ls =>
    match handleLine pj l with
    | .skip => processLines pj ls
    | .delta c =>
      let (evs, r) := processLines pj ls
      (.delta c :: evs, r)
    | .doneEv => ([.done], some true)
    | .errorEv m => ([.error m], some false)

theorem splitLines_of_splitAtNewline_none {b : List Char}
    (h : splitAtNewline b = none) : splitLines b = ([], b) := by
  induction b with
  | nil => simp [splitLines]
  | cons c cs ih =>
    by_cases hc : c = '\n'
    · simp [splitAtNewline, hc] at h
    · simp only [splitAtNewline, if_neg hc] at h
      cases hs : splitAtNewline cs with
      | none => simp [splitLines, if_neg hc, ih hs]
      | some p => rw [hs] at h; cases p; simp at h

theorem splitLines_of_splitAtNewline_some {b l r : List Char}
    (h : splitAtNewline b = some (l, r)) :
    splitLines b = (l :: (splitLines r).1, (splitLines r).2) := by
  induction b generalizing l r with
  | nil => simp [splitAtNewline] at h
  | cons c cs ih =>
    by_cases hc : c = '\n'
    · simp [splitAtNewline, hc] at h
      obtain ⟨hl, hr⟩ := h
      subst hl; subst hr
      simp [splitLines, hc]
    · simp only [splitAtNewline, if_neg hc] at h
      cases hs : splitAtNewline cs with
      | none => rw [hs] at h; simp at h
      | some p =>
        rw [hs] at h
        cases p with
        | mk l' r' =>
          simp at h
          obtain ⟨hl, hr⟩ := h
          subst hl; subst hr
          have hcs := ih hs
          simp [splitLines, if_neg hc, hcs]

theorem processBufferF_eq_lines (pj : List Char → JsonFields) :
    ∀ (fuel : Nat) (buf : List Char), buf.length ≤ fuel →
      (processBufferF pj fuel buf).1 = (processLines pj (splitLines buf).1).1 ∧
      (processBufferF pj fuel buf).2.2 = (processLines pj (splitLines buf).1).2 ∧
      ((processLines pj (splitLines buf).1).2 = none →
        (processBufferF pj fuel buf).2.1 = (splitLines buf).2) := by
  intro fuel
  induction fuel with
  | zero =>
    intro buf hlen
    have hb : buf = [] := List.length_eq_zero.mp (Nat.le_zero.mp hlen)
    subst hb
    simp [processBufferF, splitLines, processLines]
  | succ fuel ih =>
    intro buf hlen
    cases hs : splitAtNewline buf with
    | none =>
      rw [splitLines_of_splitAtNewline_none hs]
      simp [processBufferF, hs, processLines]
    | some p =>
      cases p with
      | mk line rest =>
        have hrest : rest.length ≤ fuel := by
          have := splitAtNewline_length hs
          omega
        rw [splitLines_of_splitAtNewline_some hs]
        have ihr := ih rest hrest
        cases hh : handleLine pj line with
        | skip => simpa [processBufferF, hs, hh, processLines] using ihr
        | delta c =>
          simp only [processBufferF, hs, hh, processLines]
          refine ⟨?_, ?_, ?_⟩
          · simp [ihr.1]
          · simp [ihr.2.1]
          · intro hr
            have := ihr.2.2 (by simpa using hr)
            simpa using this
        | doneEv => simp [processBufferF, hs, hh, processLines]
        | errorEv m => simp [processBufferF, hs, hh, processLines]

theorem processBuffer_eq_lines (pj : List Char → JsonFields) (buf : List Char) :
    (processBuffer pj buf).1 = (processLines pj (splitLines buf).1).1 ∧
    (processBuffer pj buf).2.2 = (processLines pj (splitLines buf).1).2 ∧
    ((processLines pj (splitLines buf).1).2 = none →
      (processBuffer pj buf).2.1 = (splitLines buf).2) :=
  processBufferF_eq_lines pj buf.length buf (Nat.le_refl _)

theorem splitLines_append : ∀ a b : List Char,
    splitLines (a ++ b) =
      ((splitLines a).1 ++ (splitLines ((splitLines a).2 ++ b)).1,
       (splitLines ((splitLines a).2 ++ b)).2) := by
  intro a
  induction a with
  | nil => intro b; simp [splitLines]
  | cons c a ih =>
    intro b
    have ihb := ih b
    cases hA : splitLines a with
    | mk La ra =>
      rw [hA] at ihb
      simp only at ihb
      cases hR : splitLines (ra ++ b) with
      | mk L2 R2 =>
        rw [hR] at ihb
        by_cases hc : c = '\n'
        · subst hc
          cases La with
          | nil => simp [splitLines, hA, ihb, hR]
          | cons l ls => simp [splitLines, hA, ihb, hR]
        · cases La with
          | nil =>
            cases L2 with
            | nil => simp [splitLines, if_neg hc, hA, ihb, hR]
            | cons l ls => simp [splitLines, if_neg hc, hA, ihb, hR]
          | cons l ls => simp [splitLines, if_neg hc, hA, ihb, hR]

theorem processLines_append (pj : List Char → JsonFields) :
    ∀ ls1 ls2 : List (List Char),
      processLines pj (ls1 ++ ls2) =
        match processLines pj ls1 with
        | (evs, none) =>
          (evs ++ (processLines pj ls2).1, (processLines pj ls2).2)
        | (evs, some ok) => (evs, some ok) := by
  intro ls1
  induction ls1 with
  | nil => intro ls2; simp [processLines]
  | cons l ls ih =>
    intro ls2
    cases hh : handleLine pj l with
    | skip =>
      simp only [List.cons_append, processLines, hh]
      exact ih ls2
    | delta c =>
      have ihh := ih ls2
      cases hP : processLines pj ls with
      | mk evs r =>
        rw [hP] at ihh
        cases r with
        | none => simp only at ihh; simp [processLines, hh, ihh, hP]
        | some ok => simp only at ihh; simp [processLines, hh, ihh, hP]
    | doneEv => simp [processLines, hh]
    | errorEv m => simp [processLines, hh]

theorem newline_not_mem_splitLines_rem : ∀ b : List Char, '\n' ∉ (splitLines b).2
  | [] => by simp [splitLines]
  | c :: cs => by
    by_cases hc : c = '\n'
    · subst hc
      simp only [splitLines, if_pos rfl]
      exact newline_not_mem_splitLines_rem cs
    · simp only [splitLines, if_neg hc]
      cases hS : splitLines cs with
      | mk L R =>
        have := newline_not_mem_splitLines_rem cs
        rw [hS] at this
        cases L with
        | nil =>
          simp only
          intro hmem
          rcases List.mem_cons.mp hmem with h | h
          · exact hc h.symm
          · exact this h
        | cons l ls => simpa using this

theorem splitLines_of_no_newline : ∀ b : List Char, '\n' ∉ b → splitLines b = ([], b) := by
  intro b
  induction b with
  | nil => intro _; simp [splitLines]
  | cons c cs ih =>
    intro h
    have hc : c ≠ '\n' := fun hh => h (by simp [hh])
    have hcs : '\n' ∉ cs := fun hh => h (by simp [hh])
    simp [splitLines, if_neg hc, ih hcs]

theorem relayChars_cons (pj : List Char → JsonFields) (buf c : List Char)
    (cs : List (List Char)) :
    relayChars pj buf (c :: cs) =
      match processLines pj (splitLines (buf ++ c)).1 with
      | (evs, none) =>
        (evs ++ (relayChars pj (splitLines (buf ++ c)).2 cs).1,
         (relayChars pj (splitLines (buf ++ c)).2 cs).2)
      | (evs, some ok) => (evs, ok) := by
  obtain ⟨h1, h2, h3⟩ := processBuffer_eq_lines pj (buf ++ c)
  simp only [relayChars]
  cases hx : processBuffer pj (buf ++ c) with
  | mk xe xp =>
    cases xp with
    | mk xb xr =>
      rw [hx] at h1 h2 h3
      simp only at h1 h2 h3
      cases hPL : processLines pj (splitLines (buf ++ c)).1 with
      | mk evs r =>
        rw [hPL] at h1 h2 h3
        simp only at h1 h2 h3
        cases r with
        | none =>
          have hb := h3 rfl
          subst h1; subst h2; subst hb
          simp
        | some ok =>
          subst h1; subst h2
          simp

theorem relayGo_cons_ok (pj : List Char → JsonFields) (buf : List Char)
    (bs : List Nat) (cs : List ChunkItem) :
    relayGo pj buf (.ok bs :: cs) =
      match processLines pj (splitLines (buf ++ utf8LossyDecode bs)).1 with
      | (evs, none) =>
        (evs ++ (relayGo pj (splitLines (buf ++ utf8LossyDecode bs)).2 cs).1,
         (relayGo pj (splitLines (buf ++ utf8LossyDecode bs)).2 cs).2)
      | (evs, some ok) => (evs, ok) := by
  obtain ⟨h1, h2, h3⟩ := processBuffer_eq_lines pj (buf ++ utf8LossyDecode bs)
  simp only [relayGo]
  cases hx : processBuffer pj (buf ++ utf8LossyDecode bs) with
  | mk xe xp =>
    cases xp with
    | mk xb xr =>
      rw [hx] at h1 h2 h3
      simp only at h1 h2 h3
      cases hPL : processLines pj (splitLines (buf ++ utf8LossyDecode bs)).1 with
      | mk evs r =>
        rw [hPL] at h1 h2 h3
        simp only at h1 h2 h3
        cases r with
        | none =>
          have hb := h3 rfl
          subst h1; subst h2; subst hb
          simp
        | some ok =>
          subst h1; subst h2
          simp

theorem relayChars_split (pj : List Char → JsonFields) (buf a b : List Char)
    (cs : List (List Char)) :
    relayChars pj buf ((a ++ b) :: cs) = relayChars pj buf (a :: b :: cs) := by
  cases hU : splitLines (buf ++ a) with
  | mk Lu Ru =>
  cases hR2 : splitLines (Ru ++ b) with
  | mk L2 R2 =>
  cases hPL1 : processLines pj Lu with
  | mk e1 r1 =>
  cases hPL2 : processLines pj L2 with
  | mk e2 r2 =>
  have hSL := splitLines_append (buf ++ a) b
  rw [hU] at hSL
  simp only at hSL
  rw [hR2] at hSL
  have hPLa := processLines_append pj Lu L2
  rw [hPL1, hPL2] at hPLa
  rw [relayChars_cons, relayChars_cons, ← List.append_assoc, hSL, hU]
  simp only [hPL1]
  cases r1 with
  | none =>
    simp only at hPLa
    rw [hPLa, relayChars_cons, hR2]
    simp only [hPL2]
    cases r2 with
    | none => simp
    | some ok => simp
  | some ok =>
    simp only at hPLa
    rw [hPLa]

theorem relayChars_join (pj : List Char → JsonFields) :
    ∀ (cs : List (List Char)) (buf : List Char), '\n' ∉ buf →
      relayChars pj buf cs = relayChars pj buf [cs.flatten] := by
  intro cs
  induction cs with
  | nil =>
    intro buf hbuf
    rw [List.flatten_nil]
    rw [relayChars_cons]
    rw [List.append_nil, splitLines_of_no_newline buf hbuf]
    simp [relayChars, processLines]
  | cons c cs ih =>
    intro buf hbuf
    rw [List.flatten_cons, relayChars_split, relayChars_cons, relayChars_cons]
    cases hPL : processLines pj (splitLines (buf ++ c)).1 with
    | mk evs r =>
      cases r with
      | none =>
        have hrem : '\n' ∉ (splitLines (buf ++ c)).2 :=
          newline_not_mem_splitLines_rem (buf ++ c)
        rw [ih (splitLines (buf ++ c)).2 hrem]
      | some ok => rfl

theorem relayGo_map_ok (pj : List Char → JsonFields) :
    ∀ (bss : List (List Nat)) (buf : List Char),
      relayGo pj buf (bss.map ChunkItem.ok) =
        relayChars pj buf (bss.map utf8LossyDecode) := by
  intro bss
  induction bss with
  | nil => intro buf; simp [relayGo, relayChars]
  | cons bs bss ih =>
    intro buf
    rw [List.map_cons, List.map_cons, relayGo_cons_ok, relayChars_cons]
    cases hPL : processLines pj (splitLines (buf ++ utf8LossyDecode bs)).1 with
    | mk evs r =>
      cases r with
      | none => rw [ih]
      | some ok => rfl

theorem runsClean_cons_ok (pj : List Char → JsonFields) (buf : List Char)
    (bs : List Nat) (rest : List ChunkItem) :
    runsClean pj buf (.ok bs :: rest) =
      match processLines pj (splitLines (buf ++ utf8LossyDecode bs)).1 with
      | (_, none) => runsClean pj (splitLines (buf ++ utf8LossyDecode bs)).2 rest
      | (_, some _) => false := by
  obtain ⟨h1, h2, h3⟩ := processBuffer_eq_lines pj (buf ++ utf8LossyDecode bs)
  simp only [runsClean]
  cases hx : processBuffer pj (buf ++ utf8LossyDecode bs) with
  | mk xe xp =>
    cases xp with
    | mk xb xr =>
      rw [hx] at h1 h2 h3
      simp only at h1 h2 h3
      cases hPL : processLines pj (splitLines (buf ++ utf8LossyDecode bs)).1 with
      | mk evs r =>
        rw [hPL] at h1 h2 h3
        simp only at h1 h2 h3
        cases r with
        | none =>
          have hb := h3 rfl
          subst h2; subst hb
          simp
        | some ok =>
          subst h2
          simp

theorem processLines_none_all_nonterminal (pj : List Char → JsonFields) :
    ∀ ls : List (List Char), (processLines pj ls).2 = none →
      ∀ e ∈ (processLines pj ls).1, e.isTerminal = false := by
  intro ls
  induction ls with
  | nil => intro _ e he; simp [processLines] at he
  | cons l ls ih =>
    intro h e he
    cases hh : handleLine pj l with
    | skip =>
      simp only [processLines, hh] at h he
      exact ih h e he
    | delta c =>
      simp only [processLines, hh] at h he
      rcases List.mem_cons.mp he with he2 | he2
      · subst he2; rfl
      · exact ih h e he2
    | doneEv => simp [processLines, hh] at h
    | errorEv m => simp [processLines, hh] at h

theorem processLines_some_shape (pj : List Char → JsonFields) :
    ∀ (ls : List (List Char)) (ok : Bool), (processLines pj ls).2 = some ok →
      ∃ ds last, (processLines pj ls).1 = ds ++ [last] ∧
        last.isTerminal = true ∧ (∀ e ∈ ds, e.isTerminal = false) ∧
        (ok = true → last = .done) := by
  intro ls
  induction ls with
  | nil => intro ok h; simp [processLines] at h
  | cons l ls ih =>
    intro ok h
    cases hh : handleLine pj l with
    | skip =>
      simp only [processLines, hh] at h ⊢
      exact ih ok h
    | delta c =>
      simp only [processLines, hh] at h ⊢
      obtain ⟨ds, last, h1, h2, h3, h4⟩ := ih ok h
      refine ⟨.delta c :: ds, last, ?_, h2, ?_, h4⟩
      · simp [h1]
      · intro e he
        rcases List.mem_cons.mp he with he | he
        · subst he; rfl
        · exact h3 e he
    | doneEv =>
      simp only [processLines, hh] at h ⊢
      refine ⟨[], .done, by simp, rfl, by simp, fun _ => rfl⟩
    | errorEv m =>
      simp only [processLines, hh] at h ⊢
      refine ⟨[], .error m, by simp, rfl, by simp, ?_⟩
      intro hok
      rw [hok] at h
      simp at h

theorem relayGo_terminal_shape (pj : List Char → JsonFields) :
    ∀ (chunks : List ChunkItem) (buf : List Char),
      ∃ ds last, (relayGo pj buf chunks).1 = ds ++ [last] ∧
        last.isTerminal = true ∧ ∀ e ∈ ds, e.isTerminal = false := by
  intro chunks
  induction chunks with
  | nil =>
    intro buf
    exact ⟨[], .done, by simp [relayGo], rfl, by simp⟩
  | cons item rest ih =>
    intro buf
    cases item with
    | err e =>
      exact ⟨[], .error ("stream error: ".data ++ e), by simp [relayGo], rfl, by simp⟩
    | ok bs =>
      rw [relayGo_cons_ok]
      cases hPL : processLines pj (splitLines (buf ++ utf8LossyDecode bs)).1 with
      | mk evs r =>
        cases r with
        | none =>
          obtain ⟨ds, last, h1, h2, h3⟩ := ih (splitLines (buf ++ utf8LossyDecode bs)).2
          refine ⟨evs ++ ds, last, ?_, h2, ?_⟩
          · simp [h1]
          · intro e he
            rcases List.mem_append.mp he with he | he
            · have := processLines_none_all_nonterminal pj
                (splitLines (buf ++ utf8LossyDecode bs)).1 (by rw [hPL]) e
              rw [hPL] at this
              exact this he
            · exact h3 e he
        | some ok =>
          obtain ⟨ds, last, h1, h2, h3, _⟩ :=
            processLines_some_shape pj (splitLines (buf ++ utf8LossyDecode bs)).1 ok
              (by rw [hPL])
          rw [hPL] at h1
          exact ⟨ds, last, h1, h2, h3⟩

theorem runsClean_relayGo_done (pj : List Char → JsonFields) :
    ∀ (cs : List ChunkItem) (buf : List Char), runsClean pj buf cs = true →
      ∃ ds, relayGo pj buf cs = (ds ++ [.done], true) ∧
        ∀ e ∈ ds, e.isTerminal = false := by
  intro cs
  induction cs with
  | nil => intro buf _; exact ⟨[], by simp [relayGo], by simp⟩
  | cons item rest ih =>
    intro buf h
    cases item with
    | err e => simp [runsClean] at h
    | ok bs =>
      rw [runsClean_cons_ok] at h
      rw [relayGo_cons_ok]
      cases hPL : processLines pj (splitLines (buf ++ utf8LossyDecode bs)).1 with
      | mk evs r =>
        rw [hPL] at h
        cases r with
        | none =>
          obtain ⟨ds, h1, h2⟩ := ih (splitLines (buf ++ utf8LossyDecode bs)).2 h
          refine ⟨evs ++ ds, ?_, ?_⟩
          · rw [h1]; simp
          · intro e he
            rcases List.mem_append.mp he with he | he
            · have := processLines_none_all_nonterminal pj
                (splitLines (buf ++ utf8LossyDecode bs)).1 (by rw [hPL]) e
              rw [hPL] at this
              exact this he
            · exact h2 e he
        | some ok => simp at h

theorem runsClean_relayGo_err (pj : List Char → JsonFields) :
    ∀ (cs : List ChunkItem) (buf : List Char), runsClean pj buf cs = true →
      ∀ (e : List Char) (rest : List ChunkItem),
        ∃ ds, relayGo pj buf (cs ++ .err e :: rest) =
            (ds ++ [.error ("stream error: ".data ++ e)], false) ∧
          ∀ x ∈ ds, x.isTerminal = false := by
  intro cs
  induction cs with
  | nil =>
    intro buf _ e rest
    exact ⟨[], by simp [relayGo], by simp⟩
  | cons item cs ih =>
    intro buf h e rest
    cases item with
    | err e' => simp [runsClean] at h
    | ok bs =>
      rw [runsClean_cons_ok] at h
      rw [List.cons_append, relayGo_cons_ok]
      cases hPL : processLines pj (splitLines (buf ++ utf8LossyDecode bs)).1 with
      | mk evs r =>
        rw [hPL] at h
        cases r with
        | none =>
          obtain ⟨ds, h1, h2⟩ := ih (splitLines (buf ++ utf8LossyDecode bs)).2 h e rest
          refine ⟨evs ++ ds, ?_, ?_⟩
          · rw [h1]; simp
          · intro x hx
            rcases List.mem_append.mp hx with hx | hx
            · have := processLines_none_all_nonterminal pj
                (splitLines (buf ++ utf8LossyDecode bs)).1 (by rw [hPL]) x
              rw [hPL] at this
              exact this hx
            · exact h2 x hx
        | some ok => simp at h

/-! ### A concrete JSON-field extractor for closed evaluations

`serde_json` is an external collaborator; the development is parametric in
the field-extraction function.  For closed theorems a concrete instance is
needed: `pjFlat` parses exactly the flat JSON objects with string keys and
escape-free string values, and agrees with
`serde_json::from_str` + `get("content")/get("error")` + `as_str` on every
payload appearing in the concrete theorems of this file. -/

/-- JSON insignificant whitespace. -/
def jsonWs (c : Char) : Bool := c = ' ' || c = '\t' || c = '\n' || c = '\r'

/-- The character `{`. -/
def lbraceChar : Char := Char.ofNat 123

/-- The character `}`. -/
def rbraceChar : Char := Char.ofNat 125

/-- Parse a JSON string literal without escapes: `"..."`. -/
def parseStrLit : List Char → Option (List Char × List Char)
  | c :: rest =>
    if c = '\"' then parseStrLitGo rest else none
  | [] => none
where
  parseStrLitGo : List Char → Option (List Char × List Char)
    | [] => none
    | c :: rest =>
      if c = '\"' then some ([], rest)
      else if c = '\\' || c.toNat < 32 then none
      else
        match parseStrLitGo rest with
        | none => none
        | some (s, r) => some (c :: s, r)

/-- Parse the members of a flat object after the opening brace, ending at
the closing brace. -/
def parseKVs : Nat → List Char → Option (List (List Char × List Char) × List Char)
  | 0, _ => none
  | fuel + 1, s =>
    match parseStrLit (s.dropWhile jsonWs) with
    | none => none
    | some (k, s1) =>
      match s1.dropWhile jsonWs with
      | c :: s2 =>
        if c = ':' then
          match parseStrLit (s2.dropWhile jsonWs) with
          | none => none
          | some (v, s3) =>
            match s3.dropWhile jsonWs with
            | c2 :: s4 =>
              if c2 = ',' then
                match parseKVs fuel s4 with
                | none => none
                | some (kvs, r) => some ((k, v) :: kvs, r)
              else if c2 = rbraceChar then some ([(k, v)], s4)
              else none
            | [] => none
        else none
      | [] => none

/-- Parse a whole payload as a flat string-valued JSON object. -/
def parseFlatObj (s : List Char) : Option (List (List Char × List Char)) :=
  match s.dropWhile jsonWs with
  | c :: s1 =>
    if c = lbraceChar then
      match s1.dropWhile jsonWs with
      | c2 :: _ =>
        if c2 = rbraceChar then
          match s1.dropWhile jsonWs with
          | _ :: s2 => if s2.dropWhile jsonWs = [] then some [] else none
          | [] => none
        else
          match parseKVs (s1.length + 1) s1 with
          | none => none
          | some (kvs, rest) =>
            if rest.dropWhile jsonWs = [] then some kvs else none
      | [] => none
    else none
  | [] => none

/-- First value bound to `key` in an association list. -/
def lookupField (key : List Char) : List (List Char × List Char) → Option (List Char)
  | [] => none
  | (k, v) :: kvs => if k = key then some v else lookupField key kvs

/-- The concrete JSON-field extractor described above. -/
def pjFlat (payload : List Char) : JsonFields :=
  match parseFlatObj payload with
  | none => none
  | some kvs => some (lookupField "content".data kvs, lookupField "error".data kvs)

/-- Encode an ASCII string as its byte sequence. -/
def asciiBytes (s : List Char) : List Nat := s.map Char.toNat

/-! ## Selection capture engine (`capture_selected_text`) -/

/-- Models Rust `str::contains(pat)` for a string pattern: substring
search. -/
def containsSub (pat : List Char) : List Char → Bool
  | [] => pat.isEmpty
  | c :: rest => pat.isPrefixOf (c :: rest) || containsSub pat rest

instance : DecidableEq (Except (List Char) (List Char)) := fun a b =>
  match a, b with
  | .ok x, .ok y =>
    if h : x = y then .isTrue (congrArg Except.ok h)
    else .isFalse (fun hh => h (Except.ok.inj hh))
  | .error x, .error y =>
    if h : x = y then .isTrue (congrArg Except.error h)
    else .isFalse (fun hh => h (Except.error.inj hh))
  | .ok _, .error _ => .isFalse (fun hh => Except.noConfusion hh)
  | .error _, .ok _ => .isFalse (fun hh => Except.noConfusion hh)

/-- The fixed sentinel marker substring. -/
def sentinelMarker : List Char := "__ERUDAITE_SENTINEL__".data

/-- Fuel-driven most-significant-first decimal digit accumulation. -/
def natDecCharsGo : Nat → Nat → List Char → List Char
  | 0, _, acc => acc
  | fuel + 1, n, acc =>
    if n = 0 then acc else natDecCharsGo fuel (n / 10) (Nat.digitChar (n % 10) :: acc)

/-- Decimal rendering of a natural number, as Rust's `Display` for `u128`
prints it inside `format!`. -/
def natDecChars (n : Nat) : List Char :=
  if n = 0 then ['0'] else natDecCharsGo n n []

/-- Models `duration_since(UNIX_EPOCH).map(|d| d.as_millis()).unwrap_or(0)`
(source lines 130-133): the clock reading is a duration in nanoseconds when
the clock is at or past the epoch, absent otherwise. -/
def msOfEpoch : Option Nat → Nat
  | none => 0
  | some ns => ns / 1000000

/-- The sentinel string `__ERUDAITE_SENTINEL__{ms}__` built at source
lines 128-134. -/
def mkSentinel (ms : Nat) : List Char :=
  sentinelMarker ++ natDecChars ms ++ "__".data

/-- The classification of one trimmed clipboard sample (`last_kind` at
source lines 202-216, which coincides with the branch structure of the
loop body at lines 217-255). -/
inductive SampleKind where
  | empty
  | sentinelSame
  | sentinelLike
  | prevSame
  | other
deriving DecidableEq, Repr

/-- Classify a trimmed clipboard sample exactly as the loop body does. -/
def classifySample (sentinel : List Char) (prevText : Option (List Char))
    (curT : List Char) : SampleKind :=
  if curT = [] then .empty
  else if curT = sentinel then .sentinelSame
  else if containsSub sentinelMarker curT then .sentinelLike
  else
    match prevText with
    | some prev => if rustTrim prev = curT then .prevSame else .other
    | none => .other

/-- The kinds on which the loop keeps waiting and may fire the alternate
copy gesture (`cur_t.is_empty() || cur_t == sentinel || cur_t.contains(..)`
at source line 217). -/
def SampleKind.isUnresolved : SampleKind → Bool
  | .empty => true
  | .sentinelSame => true
  | .sentinelLike => true
  | .prevSame => false
  | .other => false

/-- Observable record of one successful clipboard poll: its classification,
the value of the `polls` counter after the increment, and whether the
alternate copy gesture was triggered on this tick. -/
structure PollEvent where
  kind : SampleKind
  polls : Nat
  altFired : Bool
deriving DecidableEq, Repr

/-- The polling loop of `capture_selected_text` (source lines 191-257).
The environment supplies the results of the `get_text` calls that fit into
the timeout window; a `none` read models a failed `get_text` (skipped
without incrementing `polls`).  Returns the poll events, the final `polls`
counter, the final `tried_alt_copy` flag, and `picked`. -/
def pollLoop (sentinel : List Char) (prevText : Option (List Char)) :
    List (Option (List Char)) → Nat → Bool →
      List PollEvent × Nat × Bool × Option (List Char)
  | [], polls, tried => ([], polls, tried, none)
  | none :: rest, polls, tried => pollLoop sentinel prevText rest polls tried
  | some curS :: rest, polls, tried =>
    let polls1 := polls + 1
    let curT := rustTrim curS
    let kind := classifySample sentinel prevText curT
    if kind.isUnresolved then
      let fire := !tried && decide (3 ≤ polls1)
      let r := pollLoop sentinel prevText rest polls1 (tried || fire)
      (⟨kind, polls1, fire⟩ :: r.1, r.2)
    else if kind = .prevSame then
      let r := pollLoop sentinel prevText rest polls1 tried
      (⟨kind, polls1, false⟩ :: r.1, r.2)
    else
      ([⟨kind, polls1, false⟩], polls1, tried, some curT)

/-- Environment of one `capture_selected_text` call: every input the
function reads from the outside world, in interaction order. -/
structure CaptureEnv where
  clipInit : Option (List Char)
  prevRead : Option (List Char)
  epochNs : Option Nat
  sentinelWaitReads : List (Option (List Char))
  gestureRes : Except (List Char) Unit
  pollReads : List (Option (List Char))

/-- Observables of one `capture_selected_text` call: the returned value,
the arguments of the `set_text` calls in order, the sentinel-wait outcome,
and the poll-loop observables. -/
structure CaptureOut where
  result : Except (List Char) (List Char)
  writes : List (List Char)
  sentinelObserved : Bool
  pollEvents : List PollEvent
  polls : Nat
  triedAlt : Bool
deriving DecidableEq, Repr

/-- Outcome of the Windows copy-gesture block (source lines 153-169):
`Enigo::new` failure aborts with an error via `?`; every key call result is
discarded with `let _ =`. -/
def gestureWindows (enigoInit : Except (List Char) Unit) : Except (List Char) Unit :=
  match enigoInit with
  | .error e => .error ("enigo init failed: ".data ++ e)
  | .ok _ => .ok ()

/-- Outcome of the macOS copy-gesture block (source lines 170-183):
`Enigo::new` failure aborts via `?`, and each of the three key calls also
aborts via `?` on failure. -/
def gestureMacos (enigoInit k1 k2 k3 : Except (List Char) Unit) :
    Except (List Char) Unit :=
  match enigoInit with
  | .error e => .error ("enigo init failed: ".data ++ e)
  | .ok _ =>
    match k1 with
    | .error e => .error ("enigo key failed: ".data ++ e)
    | .ok _ =>
      match k2 with
      | .error e => .error ("enigo key failed: ".data ++ e)
      | .ok _ =>
        match k3 with
        | .error e => .error ("enigo key failed: ".data ++ e)
        | .ok _ => .ok ()

/-- Model of `capture_selected_text` (source lines 115-267) over an explicit
environment: clipboard initialization, previous-text read, sentinel
creation and write, sentinel-wait loop, copy gesture, polling loop,
best-effort restore, and the final `Ok(picked.unwrap_or_default())`. -/
def capture_selected_text (env : CaptureEnv) : CaptureOut :=
  match env.clipInit with
  | some e =>
    ⟨.error ("clipboard init failed: ".data ++ e), [], false, [], 0, false⟩
  | none =>
    let sentinel := mkSentinel (msOfEpoch env.epochNs)
    let obs := env.sentinelWaitReads.any (fun r =>
      match r with
      | some cur => rustTrim cur == sentinel
      | none => false)
    match env.gestureRes with
    | .error e => ⟨.error e, [sentinel], obs, [], 0, false⟩
    | .ok _ =>
      let r := pollLoop sentinel env.prevRead env.pollReads 0 false
      let writes := [sentinel] ++
        (match env.prevRead with
         | some p => [p]
         | none => [])
      ⟨.ok ((r.2.2.2).getD []), writes, obs, r.1, r.2.1, r.2.2.1⟩

/-! ### Whitespace-trimming lemmas -/

theorem length_dropWhile_le (p : Char → Bool) :
    ∀ l : List Char, (l.dropWhile p).length ≤ l.length := by
  intro l
  induction l with
  | nil => simp
  | cons x xs ih =>
    by_cases hx : p x
    · simp only [List.dropWhile_cons, hx, if_pos, List.length_cons]
      omega
    · simp [List.dropWhile_cons, hx]

theorem rustTrim_eq_rdrop (s : List Char) :
    rustTrim s = List.rdropWhile rustIsWhitespace (s.dropWhile rustIsWhitespace) := rfl

theorem rdropWhile_append_eq (p : Char → Bool) (t : List Char) :
    List.rdropWhile p t ++ (t.reverse.takeWhile p).reverse = t := by
  have h := congrArg List.reverse
    (List.takeWhile_append_dropWhile (p := p) (l := t.reverse))
  rw [List.reverse_append, List.reverse_reverse] at h
  exact h

theorem dropWhile_rdropWhile_of_clean (t : List Char)
    (ht : t.dropWhile rustIsWhitespace = t) :
    (List.rdropWhile rustIsWhitespace t).dropWhile rustIsWhitespace =
      List.rdropWhile rustIsWhitespace t := by
  cases hrd : List.rdropWhile rustIsWhitespace t with
  | nil => simp
  | cons x xs =>
    have hsplit := rdropWhile_append_eq rustIsWhitespace t
    rw [hrd] at hsplit
    have hx : rustIsWhitespace x = false := by
      by_contra hwx
      have hwx' : rustIsWhitespace x = true := by
        cases hb : rustIsWhitespace x
        · exact absurd hb hwx
        · rfl
      rw [← hsplit] at ht
      simp only [List.cons_append, List.dropWhile_cons, hwx', if_pos] at ht
      have hlen := length_dropWhile_le rustIsWhitespace
        (xs ++ (t.reverse.takeWhile rustIsWhitespace).reverse)
      have hlh := congrArg List.length ht
      simp only [List.length_cons, List.length_append] at hlh hlen
      omega
    simp [List.dropWhile_cons, hx]

theorem rustTrim_idem (s : List Char) : rustTrim (rustTrim s) = rustTrim s := by
  rw [rustTrim_eq_rdrop s]
  rw [rustTrim_eq_rdrop]
  rw [dropWhile_rdropWhile_of_clean _ (List.dropWhile_idempotent _ _)]
  exact List.rdropWhile_idempotent _ _

theorem rustTrim_append_ws (c : Char) (hc : rustIsWhitespace c = true) :
    ∀ (z : List Char) (j : Nat),
      rustTrim (z ++ List.replicate j c) = rustTrim z := by
  have hrd : ∀ (u : List Char) (j : Nat),
      List.rdropWhile rustIsWhitespace (u ++ List.replicate j c) =
        List.rdropWhile rustIsWhitespace u := by
    intro u j
    induction j with
    | zero => simp
    | succ j ih =>
      rw [List.replicate_succ', ← List.append_assoc,
        List.rdropWhile_concat_pos _ _ c hc, ih]
  intro z j
  rw [rustTrim_eq_rdrop, rustTrim_eq_rdrop]
  rw [List.dropWhile_append]
  by_cases hz : (z.dropWhile rustIsWhitespace).isEmpty
  · rw [if_pos hz]
    have h1 : (List.replicate j c).dropWhile rustIsWhitespace = [] := by
      rw [List.dropWhile_eq_nil_iff]
      intro x hx
      rw [List.eq_of_mem_replicate hx]
      exact hc
    have h2 : z.dropWhile rustIsWhitespace = [] := by
      cases hzz : z.dropWhile rustIsWhitespace
      · rfl
      · rw [hzz] at hz; simp [List.isEmpty] at hz
    rw [h1, h2]
  · rw [if_neg hz, hrd]

/-! ### Spec-side line handling (for claim C8)

The following two definitions follow the words of the specification rather
than the source; they exist only to be compared with `handleLine`. -/

/-- Modelled from the spec: strip a single trailing carriage return. -/
def stripCrOnce (s : List Char) : List Char :=
  match s.reverse with
  | c :: rest => if c = '\r' then rest.reverse else s
  | [] => s

/-- Modelled from the spec reading of claim C8: strip a single occurrence
of the data-prefix from the front. -/
def stripDataOnce (s : List Char) : List Char :=
  if dataPrefixChars.isPrefixOf s then s.drop dataPrefixChars.length else s

/-- Claim C8's reading of the per-line processing: single trailing carriage
return, a single occurrence of the data-prefix, surrounding whitespace. -/
def lineInterpSingle (pj : List Char → JsonFields) (line : List Char) : LineStep :=
  if dataPrefixChars.isPrefixOf (stripCrOnce line) then
    interpretPayload pj (rustTrim (stripDataOnce (stripCrOnce line)))
  else .skip

/-- The amended reading: single trailing carriage return, ALL leading
occurrences of the data-prefix, surrounding whitespace. -/
def lineInterpAmended (pj : List Char → JsonFields) (line : List Char) : LineStep :=
  if dataPrefixChars.isPrefixOf (stripCrOnce line) then
    interpretPayload pj (rustTrim (trimStartMatchesList dataPrefixChars (stripCrOnce line)))
  else .skip

theorem isPrefixOf_append_replicate (c : Char) :
    ∀ (p x : List Char) (j : Nat), (∀ a ∈ p, a ≠ c) →
      p.isPrefixOf (x ++ List.replicate j c) = p.isPrefixOf x := by
  intro p
  induction p with
  | nil => intro x j _; cases x <;> simp [List.isPrefixOf]
  | cons a p ih =>
    intro x j h
    cases x with
    | nil =>
      simp only [List.nil_append]
      cases j with
      | zero => simp
      | succ j =>
        have ha : (a == c) = false := beq_eq_false_iff_ne.mpr (h a (by simp))
        simp [List.replicate_succ, List.isPrefixOf, ha]
    | cons b x' =>
      have hih := ih x' j (fun y hy => h y (by simp [hy]))
      simp only [List.cons_append, List.isPrefixOf, List.append_eq, hih]

theorem trimStartMatches_append_replicate (p : List Char) (hp : p ≠ []) (c : Char)
    (hpc : ∀ a ∈ p, a ≠ c) :
    ∀ (n : Nat) (x : List Char), x.length ≤ n → ∀ j : Nat,
      trimStartMatchesList p (x ++ List.replicate j c) =
        trimStartMatchesList p x ++ List.replicate j c := by
  intro n
  induction n with
  | zero =>
    intro x hx j
    have hx0 : x = [] := List.length_eq_zero.mp (Nat.le_zero.mp hx)
    subst hx0
    rw [List.nil_append, trimStartMatchesList_eq p _ hp, trimStartMatchesList_eq p [] hp]
    have h1 : p.isPrefixOf (List.replicate j c) = false := by
      have := isPrefixOf_append_replicate c p [] j hpc
      rw [List.nil_append] at this
      rw [this]
      cases p with
      | nil => exact absurd rfl hp
      | cons a q => rfl
    have h2 : p.isPrefixOf ([] : List Char) = false := by
      cases p with
      | nil => exact absurd rfl hp
      | cons a q => rfl
    rw [h1, h2]
    simp
  | succ n ih =>
    intro x hx j
    rw [trimStartMatchesList_eq p _ hp, trimStartMatchesList_eq p x hp]
    rw [isPrefixOf_append_replicate c p x j hpc]
    by_cases hpre : p.isPrefixOf x
    · rw [if_pos hpre, if_pos hpre]
      have hplen : 0 < p.length := List.length_pos.mpr hp
      have hle : p.length ≤ x.length := isPrefixOf_length_le p x hpre
      rw [List.drop_append_of_le_length hle]
      have hlen2 : (x.drop p.length).length ≤ n := by
        simp only [List.length_drop]
        omega
      exact ih (x.drop p.length) hlen2 j
    · rw [if_neg hpre, if_neg hpre]

theorem trimEndMatchesChar_eq_rdrop (c : Char) (s : List Char) :
    trimEndMatchesChar c s = List.rdropWhile (fun x => x = c) s := rfl

theorem trimEnd_decomp (line : List Char) :
    trimEndMatchesChar '\r' line ++
      List.replicate (line.reverse.takeWhile (fun x => x = '\r')).length '\r' = line := by
  have h := rdropWhile_append_eq (fun x => decide (x = '\r')) line
  have h2 : (line.reverse.takeWhile (fun x => decide (x = '\r'))).reverse =
      List.replicate (line.reverse.takeWhile (fun x => decide (x = '\r'))).length '\r' := by
    have hall : ∀ b ∈ (line.reverse.takeWhile (fun x => decide (x = '\r'))).reverse,
        b = '\r' := by
      intro b hb
      rw [List.mem_reverse] at hb
      have := List.mem_takeWhile_imp hb
      simpa using this
    have := List.eq_replicate_of_mem hall
    rw [List.length_reverse] at this
    exact this
  rw [trimEndMatchesChar_eq_rdrop]
  rw [← h2]
  exact h

theorem stripCrOnce_decomp (line : List Char) :
    stripCrOnce line =
      trimEndMatchesChar '\r' line ++
        List.replicate ((line.reverse.takeWhile (fun x => x = '\r')).length - 1) '\r' ∨
    ((line.reverse.takeWhile (fun x => x = '\r')).length = 0 ∧
      stripCrOnce line = line ∧ stripCrOnce line = trimEndMatchesChar '\r' line) := by
  cases hrev : line.reverse with
  | nil =>
    right
    have hl : line = [] := by
      have := congrArg List.reverse hrev
      simpa using this
    subst hl
    simp [stripCrOnce, trimEndMatchesChar]
  | cons y rest =>
    by_cases hy : y = '\r'
    · left
      subst hy
      have hS : stripCrOnce line = rest.reverse := by
        simp [stripCrOnce, hrev]
      have htk : List.takeWhile (fun x => decide (x = '\r')) ('\r' :: rest) =
          '\r' :: rest.takeWhile (fun x => decide (x = '\r')) := by
        rw [List.takeWhile_cons]
        simp
      have hdr : line.reverse.dropWhile (fun x => decide (x = '\r')) =
          rest.dropWhile (fun x => decide (x = '\r')) := by
        rw [hrev, List.dropWhile_cons]
        simp
      have hTE : trimEndMatchesChar '\r' line =
          (rest.dropWhile (fun x => decide (x = '\r'))).reverse := by
        rw [trimEndMatchesChar, hdr]
      have hrepl : rest.takeWhile (fun x => decide (x = '\r')) =
          List.replicate (rest.takeWhile (fun x => decide (x = '\r'))).length '\r' := by
        apply List.eq_replicate_of_mem
        intro b hb
        have := List.mem_takeWhile_imp hb
        simpa using this
      have hrest := List.takeWhile_append_dropWhile (fun x => decide (x = '\r')) rest
      rw [hS, hTE, htk]
      simp only [List.length_cons, Nat.add_sub_cancel]
      conv_lhs => rw [← hrest]
      rw [List.reverse_append]
      congr 1
      conv_lhs => rw [hrepl]
      exact List.reverse_replicate _ _
    · right
      have htk : List.takeWhile (fun x => decide (x = '\r')) (y :: rest) = [] := by
        rw [List.takeWhile_cons]
        simp [hy]
      have hdr : line.reverse.dropWhile (fun x => decide (x = '\r')) = y :: rest := by
        rw [hrev, List.dropWhile_cons]
        simp [hy]
      have hline : (y :: rest).reverse = line := by
        rw [← hrev, List.reverse_reverse]
      have hS : stripCrOnce line = line := by
        simp [stripCrOnce, hrev, hy]
      refine ⟨by rw [htk]; rfl, hS, ?_⟩
      rw [hS, trimEndMatchesChar, hdr, hline]

theorem handleLine_eq_amended (pj : List Char → JsonFields) (line : List Char) :
    handleLine pj line = lineInterpAmended pj line := by
  have hpc : ∀ a ∈ dataPrefixChars, a ≠ '\r' := by decide
  have hdpne : dataPrefixChars ≠ [] := by decide
  rcases stripCrOnce_decomp line with h | ⟨_, _, heq⟩
  · simp only [handleLine, lineInterpAmended, h]
    rw [isPrefixOf_append_replicate '\r' dataPrefixChars _ _ hpc]
    by_cases hpre : dataPrefixChars.isPrefixOf (trimEndMatchesChar '\r' line)
    · rw [if_pos hpre, if_pos hpre]
      congr 1
      rw [trimStartMatches_append_replicate dataPrefixChars hdpne '\r' hpc
        (trimEndMatchesChar '\r' line).length _ (Nat.le_refl _) _]
      rw [rustTrim_append_ws '\r' (by decide)]
    · rw [if_neg hpre, if_neg hpre]
  · simp only [handleLine, lineInterpAmended, heq]

/-! ### Poll-loop lemmas -/

theorem classifySample_other {sentinel : List Char} {prevText : Option (List Char)}
    {t : List Char} (h : classifySample sentinel prevText t = .other) :
    t ≠ [] ∧ containsSub sentinelMarker t = false ∧ t ≠ sentinel := by
  simp only [classifySample] at h
  split_ifs at h with h1 h2 h3
  exact ⟨h1, by simpa using h3, h2⟩

theorem pollLoop_picked (sentinel : List Char) (prevText : Option (List Char)) :
    ∀ (reads : List (Option (List Char))) (polls : Nat) (tried : Bool) (t : List Char),
      (pollLoop sentinel prevText reads polls tried).2.2.2 = some t →
      ∃ c, some c ∈ reads ∧ t = rustTrim c ∧
        classifySample sentinel prevText t = .other := by
  intro reads
  induction reads with
  | nil => intro polls tried t h; simp [pollLoop] at h
  | cons r rest ih =>
    intro polls tried t h
    cases r with
    | none =>
      simp only [pollLoop] at h
      obtain ⟨c, hc, ht, hcl⟩ := ih _ _ _ h
      exact ⟨c, by simp [hc], ht, hcl⟩
    | some curS =>
      simp only [pollLoop] at h
      by_cases hk : (classifySample sentinel prevText (rustTrim curS)).isUnresolved
      · rw [if_pos hk] at h
        simp only at h
        obtain ⟨c, hc, ht, hcl⟩ := ih _ _ _ h
        exact ⟨c, by simp [hc], ht, hcl⟩
      · rw [if_neg hk] at h
        by_cases hp : classifySample sentinel prevText (rustTrim curS) = .prevSame
        · rw [if_pos hp] at h
          simp only at h
          obtain ⟨c, hc, ht, hcl⟩ := ih _ _ _ h
          exact ⟨c, by simp [hc], ht, hcl⟩
        · rw [if_neg hp] at h
          simp only at h
          have ht : t = rustTrim curS := (Option.some.inj h).symm
          refine ⟨curS, by simp, ht, ?_⟩
          rw [ht]
          cases hcl : classifySample sentinel prevText (rustTrim curS) with
          | empty => rw [hcl] at hk; exact absurd rfl hk
          | sentinelSame => rw [hcl] at hk; exact absurd rfl hk
          | sentinelLike => rw [hcl] at hk; exact absurd rfl hk
          | prevSame => exact absurd hcl hp
          | other => rfl

theorem pollLoop_no_pick (sentinel : List Char) (prevText : Option (List Char)) :
    ∀ (reads : List (Option (List Char))) (polls : Nat) (tried : Bool),
      (∀ c : List Char, some c ∈ reads →
        classifySample sentinel prevText (rustTrim c) ≠ .other) →
      (pollLoop sentinel prevText reads polls tried).2.2.2 = none := by
  intro reads
  induction reads with
  | nil => intro polls tried _; simp [pollLoop]
  | cons r rest ih =>
    intro polls tried h
    cases r with
    | none =>
      simp only [pollLoop]
      exact ih _ _ (fun c hc => h c (by simp [hc]))
    | some curS =>
      simp only [pollLoop]
      by_cases hk : (classifySample sentinel prevText (rustTrim curS)).isUnresolved
      · rw [if_pos hk]
        simp only
        exact ih _ _ (fun c hc => h c (by simp [hc]))
      · rw [if_neg hk]
        by_cases hp : classifySample sentinel prevText (rustTrim curS) = .prevSame
        · rw [if_pos hp]
          simp only
          exact ih _ _ (fun c hc => h c (by simp [hc]))
        · exfalso
          apply h curS (by simp)
          cases hcl : classifySample sentinel prevText (rustTrim curS) with
          | empty => rw [hcl] at hk; exact absurd rfl hk
          | sentinelSame => rw [hcl] at hk; exact absurd rfl hk
          | sentinelLike => rw [hcl] at hk; exact absurd rfl hk
          | prevSame => exact absurd hcl hp
          | other => rfl

theorem pollLoop_alt (sentinel : List Char) (prevText : Option (List Char)) :
    ∀ (reads : List (Option (List Char))) (polls : Nat) (tried : Bool),
      (pollLoop sentinel prevText reads polls tried).1.countP
          (fun ev => ev.altFired) ≤ (if tried then 0 else 1) ∧
      ∀ ev ∈ (pollLoop sentinel prevText reads polls tried).1, ev.altFired = true →
        3 ≤ ev.polls ∧ ev.kind.isUnresolved = true := by
  intro reads
  induction reads with
  | nil =>
    intro polls tried
    constructor
    · simp [pollLoop]
    · intro ev hev; simp [pollLoop] at hev
  | cons r rest ih =>
    intro polls tried
    cases r with
    | none => simpa only [pollLoop] using ih polls tried
    | some curS =>
      simp only [pollLoop]
      by_cases hk : (classifySample sentinel prevText (rustTrim curS)).isUnresolved
      · rw [if_pos hk]
        simp only
        obtain ⟨ihc, ihev⟩ := ih (polls + 1) (tried || (!tried && decide (3 ≤ polls + 1)))
        constructor
        · rw [List.countP_cons]
          cases htr : tried with
          | true =>
            rw [htr] at ihc
            simp only [Bool.true_or] at ihc
            simp at ihc ⊢
            exact ihc
          | false =>
            rw [htr] at ihc
            simp only [Bool.false_or, Bool.not_false, Bool.true_and] at ihc
            cases hd : decide (3 ≤ polls + 1) with
            | true =>
              rw [hd] at ihc
              simp at ihc ⊢
              exact ihc
            | false =>
              rw [hd] at ihc
              simp at ihc ⊢
              exact ihc
        · intro ev hev hfire
          rcases List.mem_cons.mp hev with hev | hev
          · subst hev
            simp only at hfire
            have h3 : decide (3 ≤ polls + 1) = true := by
              cases hd : decide (3 ≤ polls + 1) with
              | true => rfl
              | false => rw [hd] at hfire; simp at hfire
            exact ⟨of_decide_eq_true h3, hk⟩
          · exact ihev ev hev hfire
      · rw [if_neg hk]
        by_cases hp : classifySample sentinel prevText (rustTrim curS) = .prevSame
        · rw [if_pos hp]
          simp only
          obtain ⟨ihc, ihev⟩ := ih (polls + 1) tried
          constructor
          · rw [List.countP_cons]
            simp
            omega
          · intro ev hev hfire
            rcases List.mem_cons.mp hev with hev | hev
            · subst hev; simp at hfire
            · exact ihev ev hev hfire
        · rw [if_neg hp]
          constructor
          · simp [List.countP_cons, List.countP_nil]
          · intro ev hev hfire
            rcases List.mem_cons.mp hev with hev | hev
            · subst hev; simp at hfire
            · simp at hev

/-! ### Injectivity of the sentinel's decimal timestamp -/

theorem natDecCharsGo_eq :
    ∀ (fuel n : Nat) (acc : List Char), n ≤ fuel →
      natDecCharsGo fuel n acc = ((Nat.digits 10 n).map Nat.digitChar).reverse ++ acc := by
  intro fuel
  induction fuel with
  | zero =>
    intro n acc h
    have hn : n = 0 := Nat.le_zero.mp h
    subst hn
    simp [natDecCharsGo]
  | succ fuel ih =>
    intro n acc h
    by_cases hn : n = 0
    · subst hn
      simp [natDecCharsGo]
    · have hpos : 0 < n := Nat.pos_of_ne_zero hn
      have hdiv : n / 10 ≤ fuel := by
        have := Nat.div_lt_self hpos (by norm_num : 1 < 10)
        omega
      simp only [natDecCharsGo, if_neg hn]
      rw [ih (n / 10) (Nat.digitChar (n % 10) :: acc) hdiv]
      rw [Nat.digits_def' (by norm_num : (1:Nat) < 10) hpos]
      simp

/-- Left inverse of `Nat.digitChar` on decimal digits. -/
def charToDigit (c : Char) : Nat := c.toNat - 48

theorem charToDigit_digitChar (d : Nat) (hd : d < 10) :
    charToDigit (Nat.digitChar d) = d := by
  interval_cases d <;> decide

theorem map_digitChar_inj :
    ∀ (l1 l2 : List Nat), (∀ x ∈ l1, x < 10) → (∀ x ∈ l2, x < 10) →
      l1.map Nat.digitChar = l2.map Nat.digitChar → l1 = l2 := by
  intro l1
  induction l1 with
  | nil =>
    intro l2 _ _ h
    cases l2 with
    | nil => rfl
    | cons b l2 => simp at h
  | cons a l1 ih =>
    intro l2 h1 h2 h
    cases l2 with
    | nil => simp at h
    | cons b l2 =>
      simp only [List.map_cons, List.cons.injEq] at h
      have hab : a = b := by
        have := congrArg charToDigit h.1
        rwa [charToDigit_digitChar a (h1 a (by simp)),
          charToDigit_digitChar b (h2 b (by simp))] at this
      rw [hab, ih l2 (fun x hx => h1 x (by simp [hx])) (fun x hx => h2 x (by simp [hx])) h.2]

theorem natDecChars_eq_digits (n : Nat) :
    natDecChars n =
      if n = 0 then ['0'] else ((Nat.digits 10 n).map Nat.digitChar).reverse := by
  by_cases hn : n = 0
  · subst hn; simp [natDecChars]
  · rw [natDecChars, if_neg hn, if_neg hn,
      natDecCharsGo_eq n n [] (Nat.le_refl n), List.append_nil]

theorem natDecChars_inj (m n : Nat) (h : natDecChars m = natDecChars n) : m = n := by
  rw [natDecChars_eq_digits, natDecChars_eq_digits] at h
  by_cases hm : m = 0 <;> by_cases hn : n = 0
  · rw [hm, hn]
  · exfalso
    rw [if_pos hm, if_neg hn] at h
    have h2 : (Nat.digits 10 n).map Nat.digitChar = ['0'] := by
      have := congrArg List.reverse h
      simpa using this.symm
    obtain ⟨d, hd, hdc⟩ : ∃ d, Nat.digits 10 n = [d] ∧ Nat.digitChar d = '0' := by
      cases hdig : Nat.digits 10 n with
      | nil => rw [hdig] at h2; simp at h2
      | cons d rest =>
        rw [hdig] at h2
        simp only [List.map_cons, List.cons.injEq] at h2
        have : rest = [] := by
          cases rest with
          | nil => rfl
          | cons e r => simp at h2
        exact ⟨d, by rw [this], h2.1⟩
    have hdlt : d < 10 :=
      Nat.digits_lt_base (by norm_num) (by rw [hd]; simp)
    have hd0 : d = 0 := by
      have := congrArg charToDigit hdc
      rwa [charToDigit_digitChar d hdlt] at this
    have := Nat.ofDigits_digits 10 n
    rw [hd, hd0] at this
    simp [Nat.ofDigits] at this
    exact hn this.symm
  · exfalso
    rw [if_neg hm, if_pos hn] at h
    have h2 : (Nat.digits 10 m).map Nat.digitChar = ['0'] := by
      have := congrArg List.reverse h
      simpa using this
    obtain ⟨d, hd, hdc⟩ : ∃ d, Nat.digits 10 m = [d] ∧ Nat.digitChar d = '0' := by
      cases hdig : Nat.digits 10 m with
      | nil => rw [hdig] at h2; simp at h2
      | cons d rest =>
        rw [hdig] at h2
        simp only [List.map_cons, List.cons.injEq] at h2
        have : rest = [] := by
          cases rest with
          | nil => rfl
          | cons e r => simp at h2
        exact ⟨d, by rw [this], h2.1⟩
    have hdlt : d < 10 :=
      Nat.digits_lt_base (by norm_num) (by rw [hd]; simp)
    have hd0 : d = 0 := by
      have := congrArg charToDigit hdc
      rwa [charToDigit_digitChar d hdlt] at this
    have := Nat.ofDigits_digits 10 m
    rw [hd, hd0] at this
    simp [Nat.ofDigits] at this
    exact hm this.symm
  · rw [if_neg hm, if_neg hn] at h
    have h2 := List.reverse_injective h
    have h3 := map_digitChar_inj (Nat.digits 10 m) (Nat.digits 10 n)
      (fun x hx => Nat.digits_lt_base (by norm_num) hx)
      (fun x hx => Nat.digits_lt_base (by norm_num) hx) h2
    have hm2 := Nat.ofDigits_digits 10 m
    have hn2 := Nat.ofDigits_digits 10 n
    rw [h3] at hm2
    rw [← hm2, hn2]

theorem mkSentinel_inj (m n : Nat) (h : mkSentinel m = mkSentinel n) : m = n := by
  unfold mkSentinel at h
  have h1 := List.append_cancel_right h
  have h2 := List.append_cancel_left h1
  exact natDecChars_inj m n h2

/-! ### Classification helpers for the claims -/

theorem classifySample_ne_other_cases {sentinel : List Char}
    {prevText : Option (List Char)} {t : List Char}
    (hd : t = [] ∨ t = sentinel ∨ ∃ p, prevText = some p ∧ rustTrim p = t) :
    classifySample sentinel prevText t ≠ .other := by
  intro h
  simp only [classifySample] at h
  split_ifs at h with h1 h2 h3
  rcases hd with h4 | h4 | ⟨p, hp, hpt⟩
  · exact h1 h4
  · exact h2 h4
  · rw [hp] at h
    simp only at h
    rw [if_pos hpt] at h
    exact SampleKind.noConfusion h

/-- Bool encoding of claim C5's hypothesis on one clipboard sample: a failed
read, or a sample that trims to empty, to the sentinel, or to the trimmed
previous clipboard content. -/
def sampleHarmless (sentinel : List Char) (prevRead : Option (List Char)) :
    Option (List Char) → Bool
  | none => true
  | some c =>
    rustTrim c == [] || rustTrim c == sentinel ||
    (match prevRead with
     | some p => rustTrim c == rustTrim p
     | none => false)

/-! ## The claims -/

/-- Concrete environment for claim C1: clipboard initialization succeeds,
the previous clipboard text is `abc`, and `Enigo::new` fails inside the
Windows gesture block. -/
def envC1 : CaptureEnv :=
  ⟨none, some "abc".data, some 5000000, [], gestureWindows (.error "boom".data), []⟩

/-- C1 (code bug evidence): when the gesture subsystem fails to initialize
after the sentinel was written, `capture_selected_text` returns the error
without restoring the previous clipboard text — the only `set_text` call of
the whole run wrote the sentinel, and the previous content `abc` is never
written back, so the clipboard is left holding the sentinel. -/
theorem capture_restore_skipped_on_gesture_error :
    (capture_selected_text envC1).result = .error "enigo init failed: boom".data ∧
    (capture_selected_text envC1).writes = [mkSentinel 5] ∧
    "abc".data ∉ (capture_selected_text envC1).writes ∧
    mkSentinel 5 ≠ "abc".data := by decide

/-- First chunk of the C2 counterexample: an SSE data line whose JSON
payload ends mid-way through the two-byte UTF-8 encoding of `é`
(`0xC3 0xA9`). -/
def chunkA : List Nat := asciiBytes "data: \x7b\"content\":\"".data ++ [0xC3]

/-- Second chunk of the C2 counterexample: the remaining continuation byte
and the rest of the frame. -/
def chunkB : List Nat := [0xA9] ++ asciiBytes "\"\x7d\x0a".data

/-- C2 counterexample: splitting the byte stream inside the multi-byte
character makes the per-chunk lossy UTF-8 decoding produce two replacement
characters instead of `é`, so the incremental run and the single-chunk run
emit different `delta` events. -/
theorem translate_sse_chunking_not_invariant :
    relayGo pjFlat [] [.ok chunkA, .ok chunkB] =
      ([.delta [replChar, replChar], .done], true) ∧
    relayGo pjFlat [] [.ok (chunkA ++ chunkB)] = ([.delta ['é'], .done], true) ∧
    relayGo pjFlat [] [.ok chunkA, .ok chunkB] ≠
      relayGo pjFlat [] [.ok (chunkA ++ chunkB)] := by decide

/-- C2 amended: for every splitting of the byte stream whose per-chunk
lossy decoding concatenates to the decoding of the whole stream (in
particular every splitting at UTF-8 character boundaries), feeding the
chunks incrementally emits exactly the events of feeding the whole stream
as one chunk. -/
theorem translate_sse_chunking_invariant (pj : List Char → JsonFields)
    (bss : List (List Nat))
    (h : utf8LossyDecode bss.flatten = (bss.map utf8LossyDecode).flatten) :
    relayGo pj [] (bss.map ChunkItem.ok) = relayGo pj [] [ChunkItem.ok bss.flatten] := by
  rw [relayGo_map_ok]
  rw [relayChars_join pj (bss.map utf8LossyDecode) [] (by simp)]
  have h2 : relayGo pj [] [ChunkItem.ok bss.flatten] =
      relayChars pj [] [utf8LossyDecode bss.flatten] := by
    have := relayGo_map_ok pj [bss.flatten] []
    simpa using this
  rw [h2, h]

/-- The chunk list of the C2 amended witness: an ASCII frame split
mid-token. -/
def bssC2 : List (List Nat) := [asciiBytes "data: [D".data, asciiBytes "ONE]\x0a".data]

/-- Witness for the C2 amended theorem at a concrete split. -/
theorem translate_sse_chunking_invariant_witness :
    utf8LossyDecode bssC2.flatten = (bssC2.map utf8LossyDecode).flatten ∧
    relayGo pjFlat [] (bssC2.map ChunkItem.ok) =
      relayGo pjFlat [] [ChunkItem.ok bssC2.flatten] :=
  ⟨by decide, translate_sse_chunking_invariant pjFlat bssC2 (by decide)⟩

/-- C3: on every input, the events emitted by `translate_sse` consist of
non-terminal events followed by exactly one terminal event; nothing is ever
emitted after the first `done` or `error`. -/
theorem translate_sse_terminal_once (pj : List Char → JsonFields)
    (statusSuccess : Bool) (statusLine bodyText : List Char)
    (chunks : List ChunkItem) :
    ∃ ds last,
      (translate_sse pj statusSuccess statusLine bodyText chunks).1 = ds ++ [last] ∧
      last.isTerminal = true ∧ ∀ e ∈ ds, e.isTerminal = false := by
  cases hs : statusSuccess with
  | true =>
    simp only [translate_sse, if_pos]
    exact relayGo_terminal_shape pj chunks []
  | false =>
    simp only [translate_sse, Bool.false_eq_true, if_false]
    exact ⟨[], .error ("api error ".data ++ statusLine ++ ": ".data ++ bodyText),
      by simp, rfl, by simp⟩

/-- Concrete environments for the C4 counterexample: clipboard
initialization succeeds, but the gesture subsystem fails — `Enigo::new`
on Windows, one key call on macOS. -/
def envC4win : CaptureEnv :=
  ⟨none, some "abc".data, some 0, [], gestureWindows (.error "boom".data),
    [some "xyz".data]⟩

/-- macOS variant for the C4 counterexample. -/
def envC4mac : CaptureEnv :=
  ⟨none, some "abc".data, some 0, [],
    gestureMacos (.ok ()) (.ok ()) (.error "keyfail".data) (.ok ()),
    [some "xyz".data]⟩

/-- C4 counterexample: with the clipboard subsystem fully available, the
call still returns an error when `Enigo::new` fails (Windows, via `?` at
source line 159) or when an individual key-synthesis call fails (macOS,
via `?` at source lines 178-182). -/
theorem capture_err_despite_clipboard_ok :
    envC4win.clipInit = none ∧
    (capture_selected_text envC4win).result = .error "enigo init failed: boom".data ∧
    envC4mac.clipInit = none ∧
    (capture_selected_text envC4mac).result = .error "enigo key failed: keyfail".data := by
  decide

/-- C4 amended: whenever clipboard initialization succeeds AND the
copy-gesture block completes without aborting, the call returns `Ok` for
every polling outcome; a non-empty result can only be the trimmed text of
one of the successful clipboard polls, and the no-selection case yields
`Ok` with empty text. -/
theorem capture_ok_of_gesture_ok (env : CaptureEnv)
    (h1 : env.clipInit = none) (h2 : env.gestureRes = .ok ()) :
    ∃ s, (capture_selected_text env).result = .ok s ∧
      (s ≠ [] → ∃ c, some c ∈ env.pollReads ∧ s = rustTrim c) := by
  simp only [capture_selected_text, h1, h2]
  refine ⟨_, rfl, ?_⟩
  intro hne
  cases hp : (pollLoop (mkSentinel (msOfEpoch env.epochNs)) env.prevRead
      env.pollReads 0 false).2.2.2 with
  | none =>
    rw [hp] at hne
    simp at hne
  | some t =>
    rw [hp] at hne
    simp only [Option.getD_some] at hne ⊢
    obtain ⟨c, hc, ht, _⟩ := pollLoop_picked _ _ _ _ _ _ hp
    exact ⟨c, hc, ht⟩

/-- Environment for the C4 amended witness. -/
def envC4ok : CaptureEnv :=
  ⟨none, none, some 0, [], gestureWindows (.ok ()), [some " hi ".data]⟩

/-- Witness for the C4 amended theorem. -/
theorem capture_ok_of_gesture_ok_witness :
    ∃ s, (capture_selected_text envC4ok).result = .ok s ∧
      (s ≠ [] → ∃ c, some c ∈ envC4ok.pollReads ∧ s = rustTrim c) :=
  capture_ok_of_gesture_ok envC4ok rfl rfl

/-- C5: if the clipboard and gesture subsystems initialize and every
clipboard sample of the polling window is a failed read, empty, the
sentinel, or trim-equal to the previous clipboard content, the call returns
`Ok` with empty text — in particular it never returns the previous content
as the captured value. -/
theorem capture_no_false_positive (env : CaptureEnv)
    (h1 : env.clipInit = none) (h2 : env.gestureRes = .ok ())
    (h3 : env.pollReads.all
      (sampleHarmless (mkSentinel (msOfEpoch env.epochNs)) env.prevRead) = true) :
    (capture_selected_text env).result = .ok [] := by
  simp only [capture_selected_text, h1, h2]
  have hnone : (pollLoop (mkSentinel (msOfEpoch env.epochNs)) env.prevRead
      env.pollReads 0 false).2.2.2 = none := by
    apply pollLoop_no_pick
    intro c hc
    have hall := List.all_eq_true.mp h3 (some c) hc
    simp only [sampleHarmless] at hall
    apply classifySample_ne_other_cases
    cases hpr : env.prevRead with
    | none =>
      rw [hpr] at hall
      simp only [Bool.or_eq_true, beq_iff_eq] at hall
      rcases hall with (h | h) | h
      · exact Or.inl h
      · exact Or.inr (Or.inl h)
      · simp at h
    | some p =>
      rw [hpr] at hall
      simp only [Bool.or_eq_true, beq_iff_eq] at hall
      rcases hall with (h | h) | h
      · exact Or.inl h
      · exact Or.inr (Or.inl h)
      · exact Or.inr (Or.inr ⟨p, rfl, h.symm⟩)
  rw [hnone]
  rfl

/-- Environment for the C5 witness: the sentinel, whitespace, and the
previous content reappear during polling, plus one failed read. -/
def envC5 : CaptureEnv :=
  ⟨none, some "abc".data, some 0, [], gestureWindows (.ok ()),
    [some (mkSentinel 0), some "   ".data, some " abc ".data, none]⟩

/-- Witness for C5. -/
theorem capture_no_false_positive_witness :
    envC5.pollReads.all
      (sampleHarmless (mkSentinel (msOfEpoch envC5.epochNs)) envC5.prevRead) = true ∧
    (capture_selected_text envC5).result = .ok [] :=
  ⟨by decide, capture_no_false_positive envC5 rfl rfl (by decide)⟩

/-- C6 counterexample: two calls whose clock readings are distinct instants
(0 ns and 1 ns past the epoch) truncate to the same millisecond, so both
calls build the identical sentinel string. -/
theorem sentinel_collision_at_distinct_times :
    (some 0 : Option Nat) ≠ some 1 ∧
    mkSentinel (msOfEpoch (some 0)) = mkSentinel (msOfEpoch (some 1)) := by decide

/-- C6 amended: two capture calls whose clock readings fall in different
milliseconds build unequal sentinel strings. -/
theorem sentinel_inj_of_distinct_ms (ms1 ms2 : Nat) (h : ms1 ≠ ms2) :
    mkSentinel ms1 ≠ mkSentinel ms2 :=
  fun hc => h (mkSentinel_inj ms1 ms2 hc)

/-- Witness for the C6 amended theorem. -/
theorem sentinel_inj_of_distinct_ms_witness : mkSentinel 3 ≠ mkSentinel 5 :=
  sentinel_inj_of_distinct_ms 3 5 (by decide)

/-- C7: in every `capture_selected_text` run, the alternate copy gesture
fires on at most one polling tick, and only on a tick whose successful-poll
counter has reached 3 with the sample still classified as unresolved. -/
theorem capture_alt_gesture_once (env : CaptureEnv) :
    (capture_selected_text env).pollEvents.countP (fun ev => ev.altFired) ≤ 1 ∧
    ∀ ev ∈ (capture_selected_text env).pollEvents, ev.altFired = true →
      3 ≤ ev.polls ∧ ev.kind.isUnresolved = true := by
  cases hci : env.clipInit with
  | some e =>
    constructor
    · simp [capture_selected_text, hci]
    · intro ev hev
      simp [capture_selected_text, hci] at hev
  | none =>
    cases hgr : env.gestureRes with
    | error e =>
      constructor
      · simp [capture_selected_text, hci, hgr]
      · intro ev hev
        simp [capture_selected_text, hci, hgr] at hev
    | ok u =>
      cases u
      simp only [capture_selected_text, hci, hgr]
      obtain ⟨hc, hev⟩ :=
        pollLoop_alt (mkSentinel (msOfEpoch env.epochNs)) env.prevRead env.pollReads 0 false
      exact ⟨by simpa using hc, hev⟩

/-- C8 counterexample: on the line `data: data: [DONE]` the code strips the
data-prefix repeatedly and recognises the terminal token, whereas the
claim's single-occurrence payload `data: [DONE]` is a non-empty, non-token
payload that fails to parse and is skipped. -/
theorem handleLine_double_data_cex :
    handleLine pjFlat "data: data: [DONE]".data = .doneEv ∧
    lineInterpSingle pjFlat "data: data: [DONE]".data = .skip ∧
    handleLine pjFlat "data: data: [DONE]".data ≠
      lineInterpSingle pjFlat "data: data: [DONE]".data := by decide

/-- C8 amended: for every extracted line, `translate_sse` interprets the
line only if it begins with the data-prefix, and the payload it interprets
equals the line after stripping a single trailing carriage return, ALL
leading occurrences of the data-prefix, and surrounding whitespace; other
lines are silently skipped. -/
theorem translate_sse_line_payload (pj : List Char → JsonFields) (line : List Char) :
    handleLine pj line = lineInterpAmended pj line :=
  handleLine_eq_amended pj line

/-- C9: when the chunk stream runs to end-of-input without a read error and
without a terminal token, the parser emits `done` as its final event and
the call succeeds; when a read error arrives instead, the parser emits
`error` as its final event and the call fails. -/
theorem translate_sse_stream_end (pj : List Char → JsonFields)
    (cs : List ChunkItem) (e : List Char) (rest : List ChunkItem)
    (h : runsClean pj [] cs = true) :
    (∃ ds, relayGo pj [] cs = (ds ++ [.done], true) ∧
      ∀ x ∈ ds, x.isTerminal = false) ∧
    (∃ ds, relayGo pj [] (cs ++ .err e :: rest) =
        (ds ++ [.error ("stream error: ".data ++ e)], false) ∧
      ∀ x ∈ ds, x.isTerminal = false) :=
  ⟨runsClean_relayGo_done pj cs [] h, runsClean_relayGo_err pj cs [] h e rest⟩

/-- Chunk list for the C9 witness: one delta frame, no terminal token. -/
def csC9 : List ChunkItem :=
  [.ok (asciiBytes "data: \x7b\"content\":\"Hi\"\x7d\x0a".data)]

/-- Witness for C9. -/
theorem translate_sse_stream_end_witness :
    runsClean pjFlat [] csC9 = true ∧
    ((∃ ds, relayGo pjFlat [] csC9 = (ds ++ [.done], true) ∧
      ∀ x ∈ ds, x.isTerminal = false) ∧
    (∃ ds, relayGo pjFlat [] (csC9 ++ .err "boom".data :: []) =
        (ds ++ [.error ("stream error: ".data ++ "boom".data)], false) ∧
      ∀ x ∈ ds, x.isTerminal = false)) :=
  ⟨by decide, translate_sse_stream_end pjFlat csC9 "boom".data [] (by decide)⟩

/-- C10: a non-empty `Ok` result of `capture_selected_text` carries no
leading or trailing whitespace (it is a fixed point of trimming) and does
not contain the sentinel marker substring. -/
theorem capture_result_trimmed_no_marker (env : CaptureEnv) (s : List Char)
    (h1 : (capture_selected_text env).result = .ok s) (h2 : s ≠ []) :
    rustTrim s = s ∧ containsSub sentinelMarker s = false := by
  cases hci : env.clipInit with
  | some e => simp [capture_selected_text, hci] at h1
  | none =>
    cases hgr : env.gestureRes with
    | error e =>
      simp only [capture_selected_text, hci, hgr] at h1
      exact absurd h1 (by simp)
    | ok u =>
      cases u
      simp only [capture_selected_text, hci, hgr] at h1
      have hs : (pollLoop (mkSentinel (msOfEpoch env.epochNs)) env.prevRead
          env.pollReads 0 false).2.2.2.getD [] = s := Except.ok.inj h1
      cases hp : (pollLoop (mkSentinel (msOfEpoch env.epochNs)) env.prevRead
          env.pollReads 0 false).2.2.2 with
      | none =>
        rw [hp] at hs
        simp at hs
        exact absurd hs h2
      | some t =>
        rw [hp] at hs
        simp only [Option.getD_some] at hs
        obtain ⟨c, _, ht, hcl⟩ := pollLoop_picked _ _ _ _ _ _ hp
        subst hs
        constructor
        · rw [ht, rustTrim_idem]
        · exact (classifySample_other hcl).2.1

/-- Environment for the C10 witness. -/
def envC10 : CaptureEnv :=
  ⟨none, none, some 0, [], gestureWindows (.ok ()), [some "  xyz ".data]⟩

/-- Witness for C10. -/
theorem capture_result_trimmed_no_marker_witness :
    (capture_selected_text envC10).result = .ok "xyz".data ∧ "xyz".data ≠ [] ∧
    (rustTrim "xyz".data = "xyz".data ∧
      containsSub sentinelMarker "xyz".data = false) :=
  ⟨by decide, by decide,
    capture_result_trimmed_no_marker envC10 "xyz".data (by decide) (by decide)⟩

end Erudaite
